import Mathlib

/-!
Verification development for the student OJT-hours tracker (`src/app.py`).

The Python module keeps three module-level mutable structures
(`action_log_queue = deque(maxlen=100)`, `undo_stack = []`, `redo_stack = []`)
next to a SQLAlchemy store of `Student`, `TimeEntry` and `ActionLog` rows.
Here the whole mutable world is one `AppState` record and every route handler
or helper becomes a pure function `AppState → ... → AppState` (or returning an
`Outcome × AppState` pair).  Conventions of the embedding:

* Python strings are `List Char` compared by code point, exactly as Python
  compares `str` values; `str.lower()` is modelled by `lowerStr`, which maps
  the ASCII letters `A`–`Z` to lower case and leaves every other character
  unchanged (the only case mapping exercised by the code under proof).
* Stacks: the Python code pushes with `list.append` and pops with `list.pop()`
  (both at the right end).  We keep the *top of the stack at the head* of the
  Lean list, so `push = e :: s` and popping matches on `e :: rest`.
* The audit ring `deque(maxlen=100)` is a list with the oldest entry at the
  head; `ringPush` drops from the head once 100 entries are held.
* `copy.deepcopy(student_data)` needs no counterpart: Lean values are
  immutable, so storing a snapshot can never alias the live row.
* Flask `flash(...)` calls and the final redirect are modelled by the
  `Outcome` value a handler returns; database exceptions are not modelled
  (every modelled store operation is total), so the `except` branches of
  `undo`/`redo` are unreachable in the embedding and the reachable control
  flow is translated branch for branch.
* Timestamps (`datetime.utcnow()`) are abstract `Nat` parameters; the
  database's autoincrement ids are the `next…Id` counters of `AppState`.
-/

namespace OJT

/-- Action tags stored in a history entry (`'ADD' | 'EDIT' | 'DELETE'`). -/
inductive HistAction where
  | ADD
  | EDIT
  | DELETE
deriving DecidableEq, Repr

/-- Kinds written to the `ActionLog` table (`action_type` column). -/
inductive LogKind where
  | ADD
  | EDIT
  | DELETE
  | UNDO
  | REDO
deriving DecidableEq, Repr

/-- Row of the `Student` table.  `remaining_hours` is the derived property
`total_hours - completed_hours`. -/
structure Student where
  id : Nat
  name : List Char
  program : Option (List Char)
  total_hours : Int
  completed_hours : Int
  picture : Option (List Char)
deriving DecidableEq, Repr

/-- Derived property `Student.remaining_hours`. -/
def Student.remaining_hours (s : Student) : Int :=
  s.total_hours - s.completed_hours

/-- Row of the `TimeEntry` table; `clock_out = none` means the entry is open. -/
structure TimeEntry where
  id : Nat
  student_id : Nat
  clock_in : Nat
  clock_out : Option Nat
deriving DecidableEq, Repr

/-- Snapshot dictionary pushed with a history entry.  `sid` models the `'id'`
key: `get_student_snapshot` (used for EDIT/DELETE) stores it, while the
`student_data` dict built in `add_student` has no such key; no consumer of the
snapshot ever reads it. -/
structure Snapshot where
  sid : Option Nat
  name : List Char
  program : Option (List Char)
  total_hours : Int
  completed_hours : Int
  picture : Option (List Char)
deriving DecidableEq, Repr

/-- Entry of the undo/redo stacks:
`{'student_id': …, 'action_type': …, 'data': …}`. -/
structure HistEntry where
  student_id : Nat
  action_type : HistAction
  data : Snapshot
deriving DecidableEq, Repr

/-- Row of the `ActionLog` table (timestamp not modelled; the autoincrement
`logId` orders entries). -/
structure LogRec where
  logId : Nat
  kind : LogKind
  student_name : List Char
  student_id : Option Nat
deriving DecidableEq, Repr

/-- Lightweight record appended to the in-memory `action_log_queue`. -/
structure QEntry where
  logId : Nat
  kind : LogKind
  student_name : List Char
  student_id : Option Nat
deriving DecidableEq, Repr

/-- The whole mutable world of `app.py`: the database tables plus the three
module-level structures. -/
structure AppState where
  students : List Student
  timeEntries : List TimeEntry
  logs : List LogRec
  ring : List QEntry
  undoStack : List HistEntry
  redoStack : List HistEntry
  nextLogId : Nat
  nextStudentId : Nat
  nextEntryId : Nat
deriving DecidableEq, Repr

/-- Empty state: fresh database, empty queue and stacks. -/
def initState : AppState :=
  { students := [], timeEntries := [], logs := [], ring := [],
    undoStack := [], redoStack := [],
    nextLogId := 0, nextStudentId := 1, nextEntryId := 1 }

/-- `Student.query.get(sid)`. -/
def getStudent (st : AppState) (sid : Nat) : Option Student :=
  st.students.find? (fun s => s.id == sid)

/-- Overwrite the mutable fields of a row from a snapshot (the five
assignments of the EDIT/DELETE undo and redo branches). -/
def setFields (s : Student) (d : Snapshot) : Student :=
  { s with name := d.name, program := d.program, total_hours := d.total_hours,
           completed_hours := d.completed_hours, picture := d.picture }

/-- Overwrite student `sid`'s fields in the store and commit. -/
def updateStudent (st : AppState) (sid : Nat) (d : Snapshot) : AppState :=
  { st with students := st.students.map (fun s => if s.id == sid then setFields s d else s) }

/-- `db.session.delete(student)` for the row with id `sid`. -/
def deleteStudentRow (st : AppState) (sid : Nat) : AppState :=
  { st with students := st.students.filter (fun s => s.id != sid) }

/-- `TimeEntry.query.filter_by(student_id=sid).delete()`. -/
def deleteTimeEntriesOf (st : AppState) (sid : Nat) : AppState :=
  { st with timeEntries := st.timeEntries.filter (fun e => e.student_id != sid) }

/-- `db.session.add(Student(id=…, …)); db.session.commit()`. -/
def insertStudent (st : AppState) (s : Student) : AppState :=
  { st with students := st.students ++ [s] }

/-- Build the row recreated by `Student(id=student_id, name=data['name'], …)`. -/
def studentOfSnapshot (sid : Nat) (d : Snapshot) : Student :=
  { id := sid, name := d.name, program := d.program, total_hours := d.total_hours,
    completed_hours := d.completed_hours, picture := d.picture }

/-- Append to the bounded deque: `deque(maxlen=100).append(e)` keeps the 100
newest entries, evicting from the head (oldest first). -/
def ringPush (q : List QEntry) (e : QEntry) : List QEntry :=
  ((q ++ [e]).drop ((q ++ [e]).length - 100))

/-- `log_action`: insert an `ActionLog` row (getting the next autoincrement
id) and mirror a lightweight record into the in-memory queue. -/
def log_action (st : AppState) (kind : LogKind) (nm : List Char) (sid : Option Nat) : AppState :=
  { st with logs := st.logs ++ [⟨st.nextLogId, kind, nm, sid⟩],
            ring := ringPush st.ring ⟨st.nextLogId, kind, nm, sid⟩,
            nextLogId := st.nextLogId + 1 }

/-- `save_to_undo_stack`: push a (deep-copied) history entry onto the undo
stack and clear the redo stack. -/
def save_to_undo_stack (st : AppState) (sid : Nat) (a : HistAction) (d : Snapshot) : AppState :=
  { st with undoStack := ⟨sid, a, d⟩ :: st.undoStack, redoStack := [] }

/-- `get_student_snapshot`: capture the full current state of a row
(including the `'id'` key). -/
def get_student_snapshot (s : Student) : Snapshot :=
  ⟨some s.id, s.name, s.program, s.total_hours, s.completed_hours, s.picture⟩

/-- Observable report of an undo/redo/mutation handler, standing in for the
`flash` category it raises: `historyEmpty` is the "Nothing to undo/redo."
warning, `success a` the success flash of an undo/redo whose original action
was `a`, `failed` the "Undo failed: Student not found" danger flash, and
`silent` the branches that flash nothing at all (an EDIT undo, or an
EDIT/DELETE redo, whose target row is gone: the code's `if student:` guard
fails and the handler just redirects). -/
inductive Outcome where
  | historyEmpty
  | success (original : HistAction)
  | failed
  | silent
deriving DecidableEq, Repr

/-- The `/undo` handler, branch for branch.  The popped entry is pushed onto
the redo stack only in the ADD and DELETE branches; the EDIT branch pushes
nothing, and an EDIT whose student no longer exists does nothing at all. -/
def undo (st : AppState) : Outcome × AppState :=
  match st.undoStack with
  | [] => (.historyEmpty, st)
  | e :: rest =>
    let s0 : AppState := { st with undoStack := rest }
    match e.action_type with
    | .EDIT =>
      match getStudent s0 e.student_id with
      | some _ =>
        let s1 := updateStudent s0 e.student_id e.data
        let s2 := log_action s1 .UNDO e.data.name (some e.student_id)
        (.success .EDIT, s2)
      | none => (.silent, s0)
    | .ADD =>
      match getStudent s0 e.student_id with
      | some stu =>
        let s1 := deleteTimeEntriesOf s0 e.student_id
        let s2 := deleteStudentRow s1 e.student_id
        let s3 := log_action s2 .UNDO stu.name (some e.student_id)
        (.success .ADD, { s3 with redoStack := e :: s3.redoStack })
      | none => (.failed, { s0 with undoStack := e :: rest })
    | .DELETE =>
      let s1 :=
        match getStudent s0 e.student_id with
        | some _ => updateStudent s0 e.student_id e.data
        | none => insertStudent s0 (studentOfSnapshot e.student_id e.data)
      let s2 := log_action s1 .UNDO e.data.name (some e.student_id)
      (.success .DELETE, { s2 with redoStack := e :: s2.redoStack })

/-- The `/redo` handler, branch for branch.  A DELETE or EDIT redo whose
student row is gone silently drops the popped entry. -/
def redo (st : AppState) : Outcome × AppState :=
  match st.redoStack with
  | [] => (.historyEmpty, st)
  | e :: rest =>
    let s0 : AppState := { st with redoStack := rest }
    match e.action_type with
    | .DELETE =>
      match getStudent s0 e.student_id with
      | some _ =>
        let s1 := deleteStudentRow (deleteTimeEntriesOf s0 e.student_id) e.student_id
        let s2 := log_action s1 .REDO e.data.name (some e.student_id)
        (.success .DELETE, { s2 with undoStack := e :: s2.undoStack })
      | none => (.silent, s0)
    | .EDIT =>
      match getStudent s0 e.student_id with
      | some _ =>
        let s1 := updateStudent s0 e.student_id e.data
        let s2 := log_action s1 .REDO e.data.name (some e.student_id)
        (.success .EDIT, { s2 with undoStack := e :: s2.undoStack })
      | none => (.silent, s0)
    | .ADD =>
      let s1 :=
        match getStudent s0 e.student_id with
        | some _ => updateStudent s0 e.student_id e.data
        | none => insertStudent s0 (studentOfSnapshot e.student_id e.data)
      let s2 := log_action s1 .REDO e.data.name (some e.student_id)
      (.success .ADD, { s2 with undoStack := e :: s2.undoStack })

/-- The POST branch of `/add_student`: insert the row, push an ADD history
entry (whose dict has no `'id'` key), and log. -/
def add_student (st : AppState) (nm : List Char) (pr : Option (List Char))
    (tot comp : Int) (pic : Option (List Char)) : AppState :=
  let sid := st.nextStudentId
  let s1 : AppState :=
    { st with students := st.students ++ [⟨sid, nm, pr, tot, comp, pic⟩],
              nextStudentId := sid + 1 }
  let s2 := save_to_undo_stack s1 sid .ADD ⟨none, nm, pr, tot, comp, pic⟩
  log_action s2 .ADD nm (some sid)

/-- The POST branch of `/edit_student/<id>`: `get_or_404` (a missing id
aborts with no state change), push the *pre-edit* snapshot, overwrite the
fields (the picture only when a new upload arrives), commit and log. -/
def edit_student (st : AppState) (sid : Nat) (nm : List Char) (pr : Option (List Char))
    (tot comp : Int) (newPic : Option (List Char)) : AppState :=
  match getStudent st sid with
  | none => st
  | some stu =>
    let s1 := save_to_undo_stack st sid .EDIT (get_student_snapshot stu)
    let stu' : Student :=
      { stu with name := nm, program := pr, total_hours := tot, completed_hours := comp,
                 picture := match newPic with | some p => some p | none => stu.picture }
    let s2 : AppState :=
      { s1 with students := s1.students.map (fun t => if t.id == sid then stu' else t) }
    log_action s2 .EDIT nm (some sid)

/-- The `/delete_student/<id>` handler: `get_or_404`, push the pre-delete
snapshot, delete the dependent time entries and the row, and log. -/
def delete_student (st : AppState) (sid : Nat) : AppState :=
  match getStudent st sid with
  | none => st
  | some stu =>
    let s1 := save_to_undo_stack st sid .DELETE (get_student_snapshot stu)
    let s2 := deleteStudentRow (deleteTimeEntriesOf s1 sid) sid
    log_action s2 .DELETE stu.name (some sid)

/-- The merge step of `merge`: while both halves are nonempty, take from the
left half only when its key is strictly smaller (strictly larger for a
descending sort) — on equal keys the element of the *right* half is taken
first — then append the leftovers. -/
def merge {α κ : Type} (key : α → κ) (lt : κ → κ → Bool) (rev : Bool) :
    List α → List α → List α
  | [], right => right
  | left, [] => left
  | l :: ls, r :: rs =>
    if (if rev then lt (key r) (key l) else lt (key l) (key r)) then
      l :: merge key lt rev ls (r :: rs)
    else
      r :: merge key lt rev (l :: ls) rs
termination_by l r => l.length + r.length

/-- `merge_sort`: split at `len // 2`, sort the halves, merge. -/
def merge_sort {α κ : Type} (key : α → κ) (lt : κ → κ → Bool) (rev : Bool)
    (data : List α) : List α :=
  if h : data.length ≤ 1 then data
  else
    merge key lt rev
      (merge_sort key lt rev (data.take (data.length / 2)))
      (merge_sort key lt rev (data.drop (data.length / 2)))
termination_by data.length
decreasing_by
  · simp only [List.length_take]; omega
  · simp only [List.length_drop]; omega

/-- Model of `str.lower()` on one character: the ASCII letters `A`–`Z` map to
their lower-case forms, every other character is unchanged. -/
def lowerChar (c : Char) : Char :=
  if 'A' ≤ c ∧ c ≤ 'Z' then Char.ofNat (c.toNat + 32) else c

/-- Model of `str.lower()`. -/
def lowerStr (s : List Char) : List Char :=
  s.map lowerChar

/-- Python's `<` on strings: code-point lexicographic comparison, a shorter
string losing to any extension of itself. -/
def ltS : List Char → List Char → Bool
  | [], [] => false
  | [], _ :: _ => true
  | _ :: _, [] => false
  | a :: as, b :: bs => if a < b then true else if b < a then false else ltS as bs

/-- Python's `>=` on strings (total order, so `x >= y` is `not (x < y)`). -/
def geS (a b : List Char) : Bool := ! ltS a b

/-- Python's `>` on strings. -/
def gtS (a b : List Char) : Bool := ltS b a

/-- Python's `x.startswith(p)` (`begins p x` asks whether `x` starts with
`p`). -/
def begins : List Char → List Char → Bool
  | [], _ => true
  | _ :: _, [] => false
  | a :: as, b :: bs => if a = b then begins as bs else false

/-- Both `while lo <= hi` binary-search loops of
`binary_prefix_search_students`, over an abstract predicate `pred` on indices
(`pred mid` is `names[mid] >= prefix` for the left bound and
`names[mid] > hi_key` for the right one).  The Python loop keeps `lo` and
`hi` with `hi = mid - 1` possibly reaching `-1`; here `hip` stands for
`hi + 1`, so the guard `lo <= hi` is `lo < hip` and `hi = mid - 1` sets
`hip = mid`, and `best` carries the best index found so far (initially
`len(names)`). -/
def findFrom (pred : Nat → Bool) (lo hip best : Nat) : Nat :=
  if _h : lo < hip then
    if pred ((lo + hip - 1) / 2) then
      findFrom pred lo ((lo + hip - 1) / 2) ((lo + hip - 1) / 2)
    else
      findFrom pred ((lo + hip - 1) / 2 + 1) hip best
  else best
termination_by hip - lo
decreasing_by
  · omega
  · omega

/-- The highest character appended to form `hi_key` (`'￿'`). -/
def highChar : Char := Char.ofNat 0xFFFF

/-- `binary_prefix_search_students`, line for line: lower-case the query
(`pfx` — the Python parameter is named `prefix`), return the whole list for
an empty query, build the lowered `names`, run the two binary searches, slice
`students[left:right]` and re-validate `startswith` on the slice. -/
def binary_prefix_search_students (students : List Student) (pfx : List Char) :
    List Student :=
  let p := lowerStr pfx
  if p = [] then students
  else
    let names := students.map (fun s => lowerStr s.name)
    let n := names.length
    let left := findFrom (fun i => geS (names.getD i []) p) 0 n n
    let hiKey := p ++ [highChar]
    let right := findFrom (fun i => gtS (names.getD i []) hiKey) 0 n n
    ((students.drop left).take (right - left)).filter
      (fun s => begins p (lowerStr s.name))

/-- `TimeEntry.query.filter_by(student_id=sid, clock_out=None).first()` is
some row. -/
def hasOpenEntry (st : AppState) (sid : Nat) : Bool :=
  st.timeEntries.any (fun e => e.student_id == sid && e.clock_out == none)

/-- Number of open entries of one student (for the at-most-one-open
invariant). -/
def openEntryCount (st : AppState) (sid : Nat) : Nat :=
  (st.timeEntries.filter (fun e => e.student_id == sid && e.clock_out == none)).length

/-- Result of a clock-in request, standing in for the page/flash returned:
`ok` for "Clocked in at …", `alreadyOpen` for the double-clock-in rejection,
`completedReached` for the self-service hour-limit rejection, `notFound` for
`get_or_404` / "Student record not found.". -/
inductive ClockOutcome where
  | ok
  | alreadyOpen
  | completedReached
  | notFound
deriving DecidableEq, Repr

/-- Admin-path `/student/<id>/clock_in`: only the open-entry check guards the
insert; there is no completed-hours check on this path. -/
def clock_in (st : AppState) (sid : Nat) (now : Nat) : ClockOutcome × AppState :=
  match getStudent st sid with
  | none => (.notFound, st)
  | some _ =>
    if hasOpenEntry st sid then (.alreadyOpen, st)
    else (.ok, { st with timeEntries := st.timeEntries ++ [⟨st.nextEntryId, sid, now, none⟩],
                         nextEntryId := st.nextEntryId + 1 })

/-- Self-service `/student/clock_in`: the hour-limit check
(`if student.total_hours and student.completed_hours >= student.total_hours`,
Python truthiness of the `Int` giving `total_hours ≠ 0`) runs first, then the
open-entry check, then the insert. -/
def student_clock_in (st : AppState) (sid : Nat) (now : Nat) : ClockOutcome × AppState :=
  match getStudent st sid with
  | none => (.notFound, st)
  | some stu =>
    if stu.total_hours ≠ 0 ∧ stu.completed_hours ≥ stu.total_hours then
      (.completedReached, st)
    else if hasOpenEntry st sid then (.alreadyOpen, st)
    else (.ok, { st with timeEntries := st.timeEntries ++ [⟨st.nextEntryId, sid, now, none⟩],
                         nextEntryId := st.nextEntryId + 1 })

/-! Concrete states and rows used by the closed theorems below. -/

/-- A state whose only history entry is an EDIT of student 1, while the store
holds no student at all (the EDIT target is gone). -/
def editMissingState : AppState :=
  { initState with undoStack := [⟨1, .EDIT, ⟨some 1, ['a'], none, 10, 0, none⟩⟩] }

/-- A store holding one student `"a"` with 0 completed hours. -/
def aliceRow : Student := ⟨1, ['a'], none, 10, 0, none⟩

/-- State holding just `aliceRow`. -/
def oneStudentState : AppState :=
  { initState with students := [aliceRow], nextStudentId := 2 }

/-- `oneStudentState` after editing student 1's completed hours from 0 to 5. -/
def editedState : AppState := edit_student oneStudentState 1 ['a'] none 10 5 none

/-- Student 1 in its post-edit state (name `"b"`). -/
def stuOne : Student := ⟨1, ['b'], none, 10, 5, none⟩

/-- Student 2 as created by an ADD. -/
def stuTwo : Student := ⟨2, ['c'], none, 8, 0, none⟩

/-- History entry of an EDIT of student 1 holding the pre-edit snapshot. -/
def entryEditOne : HistEntry := ⟨1, .EDIT, ⟨some 1, ['a'], none, 10, 0, none⟩⟩

/-- History entry of the ADD that created student 2. -/
def entryAddTwo : HistEntry := ⟨2, .ADD, ⟨none, ['c'], none, 8, 0, none⟩⟩

/-- State with two recorded actions: an ADD of student 2, then an EDIT of
student 1 (the EDIT entry on top of the undo stack). -/
def roundTripState : AppState :=
  { initState with students := [stuOne, stuTwo], nextStudentId := 3,
                   undoStack := [entryEditOne, entryAddTwo] }

/-- First of two students sharing the name `"ann"`. -/
def annOne : Student := ⟨1, ['a', 'n', 'n'], none, 10, 0, none⟩

/-- Second of two students sharing the name `"ann"`. -/
def annTwo : Student := ⟨2, ['a', 'n', 'n'], none, 20, 0, none⟩

/-- A student whose name is `'a'` followed by the astral character U+10000. -/
def astralStudent : Student := ⟨1, ['a', Char.ofNat 0x10000], none, 0, 0, none⟩

/-- Student named `"Bob"`. -/
def bobStu : Student := ⟨1, ['B', 'o', 'b'], none, 0, 0, none⟩

/-- Student named `"Joanna"`. -/
def joannaStu : Student := ⟨2, ['J', 'o', 'a', 'n', 'n', 'a'], none, 0, 0, none⟩

/-- Student named `"Jon"`. -/
def jonStu : Student := ⟨3, ['J', 'o', 'n'], none, 0, 0, none⟩

/-- The spec's example candidate set, already sorted by lowered name. -/
def threeSorted : List Student := [bobStu, joannaStu, jonStu]

/-- State from `k` consecutive `log_action` calls on a fresh process. -/
def runLogs (k : Nat) : AppState :=
  (List.range k).foldl (fun s _ => log_action s .ADD [] none) initState

/-- State where student 1 exists and has one open time entry. -/
def openEntryState : AppState :=
  { initState with students := [aliceRow], timeEntries := [⟨1, 1, 0, none⟩],
                   nextStudentId := 2, nextEntryId := 2 }

/-- State where student 1 has reached the required hours and has no open
entry. -/
def completedState : AppState :=
  { initState with students := [⟨1, ['a'], none, 10, 10, none⟩], nextStudentId := 2 }

/-! Theorems. -/

/-- C9: calling `undo()` when the undo stack is empty is a no-op: it mutates
no store state, leaves both stacks unchanged, and reports that there is
nothing to undo. -/
theorem undo_empty_stack_noop (st : AppState) (h : st.undoStack = []) :
    undo st = (.historyEmpty, st) := by
  simp [undo, h]

/-- Witness for C9 at the empty initial state. -/
theorem undo_empty_stack_noop_witness :
    initState.undoStack = [] ∧ undo initState = (.historyEmpty, initState) :=
  ⟨rfl, undo_empty_stack_noop initState rfl⟩

/-- C10: the binary prefix search called with an empty query returns the
entire input list unchanged, for every input list. -/
theorem binary_prefix_search_empty_returns_all (students : List Student) :
    binary_prefix_search_students students [] = students := by
  simp [binary_prefix_search_students, lowerStr]

/-- C4: `save_to_undo_stack` (the code's `recordForUndo`) unconditionally
clears the redo stack, for every state and every pushed entry, and a `redo()`
on the resulting state reports that there is nothing to redo and changes no
state; a fresh ADD action (`add_student`) likewise leaves the redo stack
empty. -/
theorem record_for_undo_clears_redo_stack (st : AppState) (sid : Nat)
    (a : HistAction) (d : Snapshot) (nm : List Char) (pr : Option (List Char))
    (tot comp : Int) (pic : Option (List Char)) :
    (save_to_undo_stack st sid a d).redoStack = [] ∧
    redo (save_to_undo_stack st sid a d) = (.historyEmpty, save_to_undo_stack st sid a d) ∧
    (add_student st nm pr tot comp pic).redoStack = [] :=
  ⟨rfl, rfl, rfl⟩

/-- C1 (failing case): undoing an EDIT whose target student no longer exists
pops the entry, reports nothing (no failure flash), and does **not** push the
entry back: the undo stack shrinks from one entry to none and the store is
untouched, contradicting the push-back-and-report-failure policy. -/
theorem undo_edit_missing_student_silently_drops_entry :
    undo editMissingState = (.silent, { editMissingState with undoStack := [] }) := by
  decide

/-- C2 (failing case): after `edit_student` the single history entry holds
the *pre-edit* snapshot (completed hours 0, not the live 5), and a successful
`undo()` of that EDIT reports success but leaves the redo stack empty, so the
following `redo()` finds nothing to redo. -/
theorem undo_edit_pushes_nothing_to_redo :
    editedState.undoStack = [⟨1, .EDIT, ⟨some 1, ['a'], none, 10, 0, none⟩⟩] ∧
    (undo editedState).1 = .success .EDIT ∧
    (undo editedState).2.redoStack = [] ∧
    redo (undo editedState).2 = (.historyEmpty, (undo editedState).2) := by
  decide

/-- C3 (failing case): in a history holding an ADD of student 2 below an EDIT
of student 1, a single `undo()` leaves student 2 in the store, but
`undo(); redo(); undo()` deletes them (the EDIT undo pushed nothing onto the
redo stack, the `redo()` was a no-op, and the second `undo()` consumed the
older ADD entry), so the round trip does not reproduce the single-undo
state. -/
theorem undo_redo_undo_differs_from_single_undo :
    getStudent (undo roundTripState).2 2 = some stuTwo ∧
    (redo (undo roundTripState).2).1 = .historyEmpty ∧
    getStudent (undo (redo (undo roundTripState).2).2).2 2 = none := by
  decide

/-- C5 (failing case): `merge_sort` under the name key in ascending direction
swaps two students whose sort keys are equal — the merge step takes from the
right half on ties because it compares with a strict less-than — so the sort
is not stable. -/
theorem merge_sort_reverses_equal_keys :
    annOne.name = annTwo.name ∧
    merge_sort (fun s => lowerStr s.name) ltS false [annOne, annTwo] = [annTwo, annOne] := by
  constructor
  · rfl
  · simp +decide [merge_sort, merge, annOne, annTwo, lowerStr, lowerChar, ltS]

/-- With no open entry for `sid`, the open-entry count is zero. -/
theorem openEntryCount_eq_zero (st : AppState) (sid : Nat)
    (h : hasOpenEntry st sid = false) : openEntryCount st sid = 0 := by
  unfold openEntryCount
  have hnil : st.timeEntries.filter (fun e => e.student_id == sid && e.clock_out == none) = [] := by
    rw [List.filter_eq_nil_iff]
    intro e he
    have := (List.any_eq_false.mp h) e he
    simpa using this
  simp [hnil]

/-- Appending a fresh open entry for `sid` raises their open-entry count by
one. -/
theorem openEntryCount_append (st : AppState) (sid eid now : Nat) :
    openEntryCount
      { st with timeEntries := st.timeEntries ++ [⟨eid, sid, now, none⟩],
                nextEntryId := st.nextEntryId + 1 } sid
      = openEntryCount st sid + 1 := by
  simp [openEntryCount, List.filter_append]

/-- Below capacity the bounded deque append only grows the buffer. -/
theorem ringPush_below_capacity (q : List QEntry) (e : QEntry) (h : q.length < 100) :
    ringPush q e = q ++ [e] := by
  unfold ringPush
  have h0 : (q ++ [e]).length - 100 = 0 := by simp; omega
  rw [h0, List.drop_zero]

/-- At capacity the bounded deque append evicts exactly the oldest entry. -/
theorem ringPush_at_capacity (q : List QEntry) (e : QEntry) (h : q.length = 100) :
    ringPush q e = q.tail ++ [e] := by
  unfold ringPush
  have h1 : (q ++ [e]).length - 100 = 1 := by simp; omega
  rw [h1, List.drop_append_of_le_length (by omega), List.drop_one]

/-- A bounded deque append never leaves more than 100 entries. -/
theorem ringPush_length_le (q : List QEntry) (e : QEntry) :
    (ringPush q e).length ≤ 100 := by
  unfold ringPush
  simp
  omega

set_option maxRecDepth 10000 in
/-- C7: the audit-log ring buffer is bounded by 100 entries.  Each
`log_action` appends one lightweight entry at the back, below capacity the
buffer only grows, at capacity exactly the oldest (head) entry is evicted,
after any call the length is at most 100 (hence any sequence of calls from a
within-bounds state stays within bounds), and concretely: 100 calls on a
fresh process keep entries 1–100 (log ids 0–99) while the 101st call evicts
exactly the first. -/
theorem audit_ring_buffer_bounded :
    (∀ (st : AppState) (k : LogKind) (nm : List Char) (sid : Option Nat),
        (st.ring.length < 100 →
          (log_action st k nm sid).ring = st.ring ++ [⟨st.nextLogId, k, nm, sid⟩]) ∧
        (st.ring.length = 100 →
          (log_action st k nm sid).ring = st.ring.tail ++ [⟨st.nextLogId, k, nm, sid⟩]) ∧
        (log_action st k nm sid).ring.length ≤ 100) ∧
    (∀ (calls : List (LogKind × List Char × Option Nat)) (st : AppState),
        st.ring.length ≤ 100 →
        (calls.foldl (fun t c => log_action t c.1 c.2.1 c.2.2) st).ring.length ≤ 100) ∧
    (runLogs 100).ring.map (fun q => q.logId) = List.range' 0 100 ∧
    (runLogs 101).ring.map (fun q => q.logId) = List.range' 1 100 := by
  have hstep : ∀ (st : AppState) (k : LogKind) (nm : List Char) (sid : Option Nat),
      (log_action st k nm sid).ring.length ≤ 100 :=
    fun st k nm sid => ringPush_length_le st.ring _
  refine ⟨?_, ?_, by decide, by decide⟩
  · intro st k nm sid
    exact ⟨fun h => ringPush_below_capacity st.ring _ h,
           fun h => ringPush_at_capacity st.ring _ h,
           hstep st k nm sid⟩
  · intro calls
    induction calls with
    | nil => intro st h; simpa using h
    | cons c cs ih =>
      intro st _h
      exact ih (log_action st c.1 c.2.1 c.2.2) (hstep st c.1 c.2.1 c.2.2)

/-- Witness for C7: one `log_action` call from the fresh state stays within
the 100-entry bound. -/
theorem audit_ring_buffer_bounded_witness :
    initState.ring.length ≤ 100 ∧
    (([((LogKind.ADD : LogKind), (([] : List Char), (none : Option Nat)))].foldl
        (fun t c => log_action t c.1 c.2.1 c.2.2) initState).ring.length ≤ 100) :=
  ⟨by decide, audit_ring_buffer_bounded.2.1 [(.ADD, ([], none))] initState (by decide)⟩

/-- C8: while a student has an open time entry, a clock-in on the admin path
answers `alreadyOpen` with no state change, and one on the self-service path
also changes nothing and never answers `ok` — so the at-most-one-open-entry
invariant is preserved by both paths — and the completed-hours rejection is
asymmetric: with the required hours reached and no open entry, the
self-service path refuses while the admin path clocks the student in. -/
theorem clock_in_rejections_and_admin_asymmetry
    (st : AppState) (sid : Nat) (now : Nat) (stu : Student)
    (hs : getStudent st sid = some stu) :
    (hasOpenEntry st sid = true →
      clock_in st sid now = (.alreadyOpen, st) ∧
      (student_clock_in st sid now).2 = st ∧
      (student_clock_in st sid now).1 ≠ .ok) ∧
    (openEntryCount st sid ≤ 1 →
      openEntryCount (clock_in st sid now).2 sid ≤ 1 ∧
      openEntryCount (student_clock_in st sid now).2 sid ≤ 1) ∧
    (hasOpenEntry st sid = false →
      stu.total_hours ≠ 0 → stu.completed_hours ≥ stu.total_hours →
      student_clock_in st sid now = (.completedReached, st) ∧
      (clock_in st sid now).1 = .ok ∧
      openEntryCount (clock_in st sid now).2 sid = 1) := by
  refine ⟨?_, ?_, ?_⟩
  · intro hopen
    refine ⟨by simp [clock_in, hs, hopen], ?_, ?_⟩
    · by_cases hc : stu.total_hours ≠ 0 ∧ stu.completed_hours ≥ stu.total_hours
      · simp [student_clock_in, hs, hc]
      · simp [student_clock_in, hs, hc, hopen]
    · by_cases hc : stu.total_hours ≠ 0 ∧ stu.completed_hours ≥ stu.total_hours
      · simp [student_clock_in, hs, hc]
      · simp [student_clock_in, hs, hc, hopen]
  · intro hcount
    constructor
    · by_cases hopen : hasOpenEntry st sid
      · simp [clock_in, hs, hopen, hcount]
      · have h0 := openEntryCount_eq_zero st sid (by simpa using hopen)
        simp only [clock_in, hs]
        rw [if_neg (by simp [hopen])]
        simp [openEntryCount_append, h0]
    · by_cases hc : stu.total_hours ≠ 0 ∧ stu.completed_hours ≥ stu.total_hours
      · simpa [student_clock_in, hs, hc] using hcount
      · by_cases hopen : hasOpenEntry st sid
        · simpa [student_clock_in, hs, hc, hopen] using hcount
        · have h0 := openEntryCount_eq_zero st sid (by simpa using hopen)
          simp only [student_clock_in, hs]
          rw [if_neg hc, if_neg (by simp [hopen])]
          simp [openEntryCount_append, h0]
  · intro hopen hne hge
    have h0 := openEntryCount_eq_zero st sid hopen
    refine ⟨by simp [student_clock_in, hs, hne, hge], ?_, ?_⟩
    · simp [clock_in, hs, hopen]
    · simp only [clock_in, hs]
      rw [if_neg (by simp [hopen])]
      simp [openEntryCount_append, h0]

/-- Witness for C8: in `openEntryState` student 1 is clocked in, so both
paths reject; in `completedState` the hours are reached, so the self-service
path refuses while the admin path succeeds. -/
theorem clock_in_rejections_and_admin_asymmetry_witness :
    clock_in openEntryState 1 7 = (.alreadyOpen, openEntryState) ∧
    (student_clock_in openEntryState 1 7).2 = openEntryState ∧
    student_clock_in completedState 1 7 = (.completedReached, completedState) ∧
    (clock_in completedState 1 7).1 = .ok := by
  have h1 := (clock_in_rejections_and_admin_asymmetry openEntryState 1 7 aliceRow
    (by decide)).1 (by decide)
  have h2 := (clock_in_rejections_and_admin_asymmetry completedState 1 7
    ⟨1, ['a'], none, 10, 10, none⟩ (by decide)).2.2 (by decide) (by decide) (by decide)
  exact ⟨h1.1, h1.2.1, h2.1, h2.2.1⟩

/-! Order theory of the code-point string comparison `ltS`, the facts the
binary-search argument needs. -/

/-- No string compares below itself. -/
theorem ltS_irrefl : ∀ a : List Char, ltS a a = false := by
  intro a
  induction a with
  | nil => rfl
  | cons c cs ih => simp [ltS, ih]

/-- The string comparison is transitive. -/
theorem ltS_trans : ∀ {a b c : List Char}, ltS a b = true → ltS b c = true → ltS a c = true := by
  intro a
  induction a with
  | nil =>
    intro b c hab hbc
    cases b with
    | nil => simp [ltS] at hab
    | cons y ys =>
      cases c with
      | nil => simp [ltS] at hbc
      | cons z zs => rfl
  | cons x xs ih =>
    intro b c hab hbc
    cases b with
    | nil => simp [ltS] at hab
    | cons y ys =>
      cases c with
      | nil => simp [ltS] at hbc
      | cons z zs =>
        simp only [ltS] at hab hbc ⊢
        rcases lt_trichotomy x y with h1 | h1 | h1
        · rcases lt_trichotomy y z with h2 | h2 | h2
          · rw [if_pos (lt_trans h1 h2)]
          · rw [if_pos (h2 ▸ h1)]
          · rw [if_neg (asymm h2), if_pos h2] at hbc
            exact absurd hbc (by simp)
        · subst h1
          rcases lt_trichotomy x z with h2 | h2 | h2
          · rw [if_pos h2]
          · subst h2
            rw [if_neg (lt_irrefl x), if_neg (lt_irrefl x)] at hab hbc ⊢
            exact ih hab hbc
          · rw [if_neg (asymm h2), if_pos h2] at hbc
            exact absurd hbc (by simp)
        · rw [if_neg (asymm h1), if_pos h1] at hab
          exact absurd hab (by simp)

/-- Two strings neither of which compares below the other are equal
(the comparison is a total order). -/
theorem ltS_eq_of_not_lt : ∀ {a b : List Char}, ltS a b = false → ltS b a = false → a = b := by
  intro a
  induction a with
  | nil =>
    intro b hab _hba
    cases b with
    | nil => rfl
    | cons y ys => simp [ltS] at hab
  | cons x xs ih =>
    intro b hab hba
    cases b with
    | nil => simp [ltS] at hba
    | cons y ys =>
      simp only [ltS] at hab hba
      rcases lt_trichotomy x y with h1 | h1 | h1
      · rw [if_pos h1] at hab
        exact absurd hab (by simp)
      · subst h1
        rw [if_neg (lt_irrefl x), if_neg (lt_irrefl x)] at hab hba
        rw [ih hab hba]
      · rw [if_pos h1] at hba
        exact absurd hba (by simp)

/-- From `a ≤ b` and `b < c` conclude `a < c`. -/
theorem ltS_of_le_of_lt {a b c : List Char} (h1 : ltS b a = false) (h2 : ltS b c = true) :
    ltS a c = true := by
  by_cases hab : ltS a b = true
  · exact ltS_trans hab h2
  · rw [ltS_eq_of_not_lt (Bool.eq_false_iff.mpr hab) h1]
    exact h2

/-- From `a < b` and `b ≤ c` conclude `a < c`. -/
theorem ltS_of_lt_of_le {a b c : List Char} (h1 : ltS a b = true) (h2 : ltS c b = false) :
    ltS a c = true := by
  by_cases hbc : ltS b c = true
  · exact ltS_trans h1 hbc
  · rw [← ltS_eq_of_not_lt (Bool.eq_false_iff.mpr hbc) h2]
    exact h1

/-- A string starts with each of its own front segments. -/
theorem begins_append : ∀ p t : List Char, begins p (p ++ t) = true := by
  intro p t
  induction p with
  | nil => rfl
  | cons a as ih => simp [begins, ih]

/-- A string starting with `p` never compares below `p`. -/
theorem begins_not_ltS : ∀ (p x : List Char), begins p x = true → ltS x p = false := by
  intro p
  induction p with
  | nil =>
    intro x _h
    cases x <;> rfl
  | cons a as ih =>
    intro x h
    cases x with
    | nil => simp [begins] at h
    | cons b bs =>
      simp only [begins] at h
      by_cases hab : a = b
      · subst hab
        rw [if_pos rfl] at h
        simp only [ltS]
        rw [if_neg (lt_irrefl a), if_neg (lt_irrefl a)]
        exact ih bs h

      · rw [if_neg hab] at h
        exact absurd h (by simp)

/-- A string that starts with `p` and whose characters all lie below
`highChar` never compares above the high key `p ++ [highChar]`. -/
theorem begins_hiKey_not_ltS : ∀ (p x : List Char), begins p x = true →
    (∀ c ∈ x, c < highChar) → ltS (p ++ [highChar]) x = false := by
  intro p
  induction p with
  | nil =>
    intro x _h hc
    cases x with
    | nil => rfl
    | cons b bs =>
      have hb : b < highChar := hc b (List.mem_cons_self b bs)
      simp only [List.nil_append, ltS]
      rw [if_neg (asymm hb), if_pos hb]
  | cons a as ih =>
    intro x h hc
    cases x with
    | nil => simp [begins] at h
    | cons b bs =>
      simp only [begins] at h
      by_cases hab : a = b
      · subst hab
        rw [if_pos rfl] at h
        simp only [List.cons_append, ltS]
        rw [if_neg (lt_irrefl a), if_neg (lt_irrefl a)]
        exact ih bs h (fun c hcm => hc c (List.mem_cons_of_mem a hcm))
      · rw [if_neg hab] at h
        exact absurd h (by simp)

/-! Correctness of the two binary-search loops. -/

/-- The loop with `lo ≥ hip` (Python `lo > hi`) exits with the best index
found. -/
theorem findFrom_stop (pred : Nat → Bool) (lo hip best : Nat) (h : ¬ lo < hip) :
    findFrom pred lo hip best = best := by
  unfold findFrom
  rw [dif_neg h]

/-- One iteration with the probe succeeding: record `mid` and search the
lower half (`hi = mid - 1`). -/
theorem findFrom_step_true (pred : Nat → Bool) (lo hip best : Nat) (h : lo < hip)
    (hp : pred ((lo + hip - 1) / 2) = true) :
    findFrom pred lo hip best = findFrom pred lo ((lo + hip - 1) / 2) ((lo + hip - 1) / 2) := by
  conv_lhs => unfold findFrom
  rw [dif_pos h, if_pos hp]

/-- One iteration with the probe failing: search the upper half
(`lo = mid + 1`). -/
theorem findFrom_step_false (pred : Nat → Bool) (lo hip best : Nat) (h : lo < hip)
    (hp : pred ((lo + hip - 1) / 2) = false) :
    findFrom pred lo hip best = findFrom pred ((lo + hip - 1) / 2 + 1) hip best := by
  conv_lhs => unfold findFrom
  rw [dif_pos h, if_neg (by simp [hp])]

/-- Correctness of the binary-search loop on an upward-closed predicate over
`[0, n)`: started on `[lo, hip)` with everything below `lo` failing and
everything from `hip` on succeeding, it returns the least index satisfying
the predicate (or `n`): every smaller index fails, every index from the
result up to `n` succeeds, and the result is at most `n`.  `fuel` bounds the
interval length for the induction. -/
theorem findFrom_spec (pred : Nat → Bool) (n : Nat)
    (hmono : ∀ i j, i ≤ j → j < n → pred i = true → pred j = true) :
    ∀ (fuel lo hip : Nat), hip - lo ≤ fuel → lo ≤ hip → hip ≤ n →
      (∀ i, i < lo → pred i = false) →
      (∀ i, hip ≤ i → i < n → pred i = true) →
      (∀ i, i < findFrom pred lo hip hip → pred i = false) ∧
      (∀ i, findFrom pred lo hip hip ≤ i → i < n → pred i = true) ∧
      findFrom pred lo hip hip ≤ n := by
  intro fuel
  induction fuel with
  | zero =>
    intro lo hip hfuel hle hn hlo hhip
    rw [findFrom_stop pred lo hip hip (by omega)]
    exact ⟨fun i hi => hlo i (by omega), hhip, hn⟩
  | succ fuel ih =>
    intro lo hip hfuel hle hn hlo hhip
    by_cases hlt : lo < hip
    · have hmid1 : lo ≤ (lo + hip - 1) / 2 := by omega
      have hmid2 : (lo + hip - 1) / 2 < hip := by omega
      cases hp : pred ((lo + hip - 1) / 2) with
      | true =>
        rw [findFrom_step_true pred lo hip hip hlt hp]
        exact ih lo ((lo + hip - 1) / 2) (by omega) hmid1 (by omega) hlo
          (fun i hi hin => hmono ((lo + hip - 1) / 2) i hi hin hp)
      | false =>
        rw [findFrom_step_false pred lo hip hip hlt hp]
        refine ih ((lo + hip - 1) / 2 + 1) hip (by omega) (by omega) hn ?_ hhip
        intro i hi
        by_cases hil : i < lo
        · exact hlo i hil
        · cases hpi : pred i with
          | true =>
            have := hmono i ((lo + hip - 1) / 2) (by omega) (by omega) hpi
            rw [this] at hp
            exact absurd hp (by simp)
          | false => rfl
    · rw [findFrom_stop pred lo hip hip hlt]
      exact ⟨fun i hi => hlo i (by omega), hhip, hn⟩

/-- Unfolding of `binary_prefix_search_students` for a nonempty lowered
query: the slice `students[left:right]` between the two binary searches,
filtered by the `startswith` re-validation. -/
theorem bps_eq (students : List Student) (pfx : List Char) (h : ¬ lowerStr pfx = []) :
    binary_prefix_search_students students pfx =
      ((students.drop
          (findFrom (fun i => geS ((students.map fun s => lowerStr s.name).getD i []) (lowerStr pfx))
            0 students.length students.length)).take
        ((findFrom (fun i => gtS ((students.map fun s => lowerStr s.name).getD i [])
              (lowerStr pfx ++ [highChar])) 0 students.length students.length) -
          (findFrom (fun i => geS ((students.map fun s => lowerStr s.name).getD i []) (lowerStr pfx))
            0 students.length students.length))).filter
        (fun s => begins (lowerStr pfx) (lowerStr s.name)) := by
  simp only [binary_prefix_search_students]
  rw [if_neg h, List.length_map]

/-- C6 (amended): over every candidate list sorted ascending by lowercased
name whose lowered names use only characters below U+FFFF, and every
non-empty query, the binary prefix search returns exactly the students whose
lowercased name starts with the lowercased query, in their sorted order
(i.e. it equals the order-preserving filter of the input). -/
theorem binary_prefix_search_exact_on_bounded_names
    (students : List Student) (q : List Char) (hq : q ≠ [])
    (hsorted : students.Pairwise (fun a b => ltS (lowerStr b.name) (lowerStr a.name) = false))
    (hchars : ∀ s ∈ students, ∀ c ∈ lowerStr s.name, c < highChar) :
    binary_prefix_search_students students q
      = students.filter (fun s => begins (lowerStr q) (lowerStr s.name)) := by
  have hpne : ¬ lowerStr q = [] := by
    intro h
    exact hq (List.map_eq_nil_iff.mp h)
  rw [bps_eq students q hpne]
  set p := lowerStr q with hp
  set names := students.map (fun s => lowerStr s.name) with hnames
  have hlen : names.length = students.length := by rw [hnames, List.length_map]
  have hgetD : ∀ (i : Nat) (hi : i < students.length),
      names.getD i [] = lowerStr students[i].name := by
    intro i hi
    rw [List.getD_eq_getElem names [] (by omega : i < names.length)]
    simp [hnames]
  have hsortI : ∀ (i j : Nat) (hi : i < students.length) (hj : j < students.length), i < j →
      ltS (lowerStr students[j].name) (lowerStr students[i].name) = false := by
    intro i j hi hj hij
    exact List.pairwise_iff_getElem.mp hsorted i j hi hj hij
  have hmono1 : ∀ i j, i ≤ j → j < students.length →
      geS (names.getD i []) p = true → geS (names.getD j []) p = true := by
    intro i j hij hj hi
    have hi' : i < students.length := lt_of_le_of_lt hij hj
    rcases eq_or_lt_of_le hij with rfl | hlt
    · exact hi
    · rw [hgetD j hj]
      rw [hgetD i hi'] at hi
      unfold geS at hi ⊢
      rw [Bool.not_eq_true'] at hi ⊢
      cases hxj : ltS (lowerStr students[j].name) p with
      | false => rfl
      | true =>
        have := ltS_of_le_of_lt (hsortI i j hi' hj hlt) hxj
        rw [this] at hi
        exact hi
  have hmono2 : ∀ i j, i ≤ j → j < students.length →
      gtS (names.getD i []) (p ++ [highChar]) = true →
      gtS (names.getD j []) (p ++ [highChar]) = true := by
    intro i j hij hj hi
    have hi' : i < students.length := lt_of_le_of_lt hij hj
    rcases eq_or_lt_of_le hij with rfl | hlt
    · exact hi
    · rw [hgetD j hj]
      rw [hgetD i hi'] at hi
      unfold gtS at hi ⊢
      exact ltS_of_lt_of_le hi (hsortI i j hi' hj hlt)
  obtain ⟨hL1, hL2, hLle⟩ :=
    findFrom_spec (fun i => geS (names.getD i []) p) students.length hmono1
      students.length 0 students.length
      (by omega) (by omega) le_rfl
      (fun i hi => absurd hi (Nat.not_lt_zero i))
      (fun i h1 h2 => absurd (Nat.lt_of_le_of_lt h1 h2) (Nat.lt_irrefl students.length))
  obtain ⟨hR1, hR2, hRle⟩ :=
    findFrom_spec (fun i => gtS (names.getD i []) (p ++ [highChar])) students.length hmono2
      students.length 0 students.length
      (by omega) (by omega) le_rfl
      (fun i hi => absurd hi (Nat.not_lt_zero i))
      (fun i h1 h2 => absurd (Nat.lt_of_le_of_lt h1 h2) (Nat.lt_irrefl students.length))
  set L := findFrom (fun i => geS (names.getD i []) p)
    0 students.length students.length with hLdef
  set R := findFrom (fun i => gtS (names.getD i []) (p ++ [highChar]))
    0 students.length students.length with hRdef
  have hkp : ltS (p ++ [highChar]) p = false :=
    begins_not_ltS p (p ++ [highChar]) (begins_append p [highChar])
  have hpred21 : ∀ i, i < students.length →
      gtS (names.getD i []) (p ++ [highChar]) = true →
      geS (names.getD i []) p = true := by
    intro i hi hgt
    unfold gtS at hgt
    unfold geS
    rw [Bool.not_eq_true']
    cases hxp : ltS (names.getD i []) p with
    | false => rfl
    | true =>
      have := ltS_trans hgt hxp
      rw [this] at hkp
      exact absurd hkp (by simp)
  have hLR : L ≤ R := by
    by_contra hcon
    push_neg at hcon
    have hRn : R < students.length := lt_of_lt_of_le hcon hLle
    have h2 := hR2 R le_rfl hRn
    have h1 := hL1 R hcon
    simp only at h1 h2
    rw [hpred21 R hRn h2] at h1
    exact absurd h1 (by simp)
  have hadd : L + (R - L) = R := by omega
  have hsplit : students =
      students.take L ++ ((students.drop L).take (R - L) ++ students.drop R) := by
    calc students = students.take R ++ students.drop R := (List.take_append_drop R students).symm
    _ = students.take (L + (R - L)) ++ students.drop R := by rw [hadd]
    _ = (students.take L ++ (students.drop L).take (R - L)) ++ students.drop R := by
          rw [List.take_add]
    _ = students.take L ++ ((students.drop L).take (R - L) ++ students.drop R) := by
          rw [List.append_assoc]
  have hfA : (students.take L).filter (fun s => begins p (lowerStr s.name)) = [] := by
    rw [List.filter_eq_nil_iff]
    intro a ha
    obtain ⟨i, hi, hieq⟩ := List.mem_iff_getElem.mp ha
    rw [List.length_take, Nat.lt_min] at hi
    have hiL : i < L := hi.1
    have hin : i < students.length := hi.2
    have hgeq : a = students[i] := by
      rw [← hieq]
      exact List.getElem_take students
    have h1 := hL1 i hiL
    simp only at h1
    have hlt : ltS (lowerStr students[i].name) p = true := by
      have := h1
      unfold geS at this
      rw [Bool.not_eq_false'] at this
      rw [hgetD i hin] at this
      exact this
    intro hb
    have := begins_not_ltS p (lowerStr a.name) hb
    rw [hgeq] at this
    rw [this] at hlt
    exact absurd hlt (by simp)
  have hfC : (students.drop R).filter (fun s => begins p (lowerStr s.name)) = [] := by
    rw [List.filter_eq_nil_iff]
    intro a ha
    obtain ⟨i, hi, hieq⟩ := List.mem_iff_getElem.mp ha
    rw [List.length_drop] at hi
    have hj : R + i < students.length := by omega
    have hgeq : a = students[R + i] := by
      rw [← hieq]
      exact List.getElem_drop students
    have h2 := hR2 (R + i) (by omega) hj
    simp only at h2
    unfold gtS at h2
    rw [hgetD (R + i) hj] at h2
    intro hb
    have hcs : ∀ c ∈ lowerStr a.name, c < highChar :=
      hchars a (by rw [hgeq]; exact List.getElem_mem _)
    have := begins_hiKey_not_ltS p (lowerStr a.name) hb hcs
    rw [hgeq] at this
    rw [this] at h2
    exact absurd h2 (by simp)
  conv_rhs => rw [hsplit]
  rw [List.filter_append, List.filter_append, hfA, hfC]
  simp

/-- C6 (counterexample to the unrestricted claim): the singleton candidate
list holding the student named `'a'` followed by U+10000 is sorted, and the
query `"a"` is a prefix of that name, yet the binary prefix search returns
nothing — the high key `"a" ++ [U+FFFF]` compares below the name, so the
right binary search excludes it. -/
theorem binary_prefix_search_misses_astral_name :
    List.Pairwise (fun a b => ltS (lowerStr b.name) (lowerStr a.name) = false) [astralStudent] ∧
    begins (lowerStr ['a']) (lowerStr astralStudent.name) = true ∧
    binary_prefix_search_students [astralStudent] ['a'] = [] := by
  refine ⟨by decide, by decide, ?_⟩
  simp +decide [binary_prefix_search_students, findFrom, astralStudent, lowerStr, lowerChar,
    ltS, geS, gtS, highChar, begins]

/-- Witness for C6 on the spec's example: the prefix search for `"jo"` over
the sorted names `["Bob", "Joanna", "Jon"]` returns `[Joanna, Jon]`. -/
theorem binary_prefix_search_exact_on_bounded_names_witness :
    binary_prefix_search_students threeSorted ['j', 'o'] = [joannaStu, jonStu] := by
  have h := binary_prefix_search_exact_on_bounded_names threeSorted ['j', 'o']
    (by decide) (by decide) (by decide)
  rw [h]
  decide

end OJT
